import Mathlib

/-!
Shallow embedding of the chrono24 scraping library: the retry logic of
chrono24/session.py, the pagination walker and record extractors of
chrono24/api.py, and the exception surface of chrono24/exceptions.py.

External collaborators (the HTTP transport, the BeautifulSoup document
tree, the regex and JSON engines applied to a concrete document) are
modelled by explicit inputs: a page is represented by the observable
pieces the code inspects, and each extractor is a pure Lean function on
that representation, mirroring the Python control flow statement by
statement.
-/

/-- Exception kinds that the embedded code can raise.  `noListings` is
`chrono24.exceptions.NoListingsFoundException`, `requestFailure` is
`chrono24.exceptions.RequestException`; the rest are Python builtin
exception classes raised by the library code or its collaborators. -/
inductive PyErr where
  | noListings
  | requestFailure
  | attrError
  | jsonDecodeError
  | keyError
deriving DecidableEq

/-! ## chrono24/session.py : resilient fetching -/

/-- Outcome of one underlying `requests.get` attempt.  The first three
constructors are the exception classes listed in `RETRY_ARGS`
(`requests.ConnectionError`, `requests.HTTPError`,
`requests.RequestException`); `nonTransient` is any exception outside
that tuple (for example a programming error), which tenacity re-raises
without retrying. -/
inductive AttemptOutcome where
  | ok (body : String)
  | connectionError
  | httpError
  | requestsException
  | nonTransient (e : String)
deriving DecidableEq

/-- Whether tenacity retries the attempt, per
`tenacity.retry_if_exception_type((ConnectionError, HTTPError, RequestException))`. -/
def isTransient : AttemptOutcome → Bool
  | .connectionError => true
  | .httpError => true
  | .requestsException => true
  | _ => false

/-- Default `max_attempts` of `get_response` / `get_html`. -/
def defaultMaxAttempts : Nat := 8

/-- Result of `get_response`: a successful body, a raised
`chrono24.exceptions.RequestException` once retries are exhausted, or a
non-transient exception propagating out unchanged. -/
inductive FetchResult where
  | body (s : String)
  | raised (e : PyErr)
  | propagated (e : String)
deriving DecidableEq

/-- The `tenacity.Retrying` loop of `_get_tenacity_wrapped_response`,
with `stop_after_attempt maxAttempts`: attempt `n` (1-based) runs; a
success returns, a non-transient exception re-raises, and a transient
one retries unless the attempt bound is reached, in which case tenacity
raises `RetryError`, which `get_response` catches and turns into
`RequestException`. -/
def tenacityLoop (outcome : Nat → AttemptOutcome) (maxAttempts n : Nat) : FetchResult :=
  match outcome n with
  | .ok b => .body b
  | .nonTransient e => .propagated e
  | .connectionError | .httpError | .requestsException =>
      if maxAttempts ≤ n then .raised .requestFailure
      else tenacityLoop outcome maxAttempts (n + 1)
termination_by maxAttempts - n
decreasing_by all_goals omega

/-- `chrono24.session.get_response`, abstracted over the sequence of
attempt outcomes the transport produces. -/
def get_response (outcome : Nat → AttemptOutcome) (maxAttempts : Nat) : FetchResult :=
  tenacityLoop outcome maxAttempts 1

/-! ## chrono24/api.py : pagination walker -/

/-- `Chrono24.page_size`. -/
def page_size : Nat := 120

/-- `Chrono24._total_page_count`: `self.count // self.page_size + 1`. -/
def total_page_count (count : Nat) : Nat := count / page_size + 1

/-- Truthiness test `if limit and num_listings_yielded >= limit` from
`Chrono24._search`.  `none` models Python `None`; `some l` models an
integer limit, whose truthiness is `l != 0`. -/
def limitReached (limit : Option Int) (num : Nat) : Bool :=
  match limit with
  | none => false
  | some l => decide (l ≠ 0) && decide ((num : Int) ≥ l)

/-- The inner `for listing_html in listings.htmls` loop of
`Chrono24._search`: runs through one page of listings, checking the
limit before each yield.  Returns the listings yielded from this page,
the updated `num_listings_yielded`, and whether the generator returned
early because the limit was reached. -/
def emitPage {α : Type} (limit : Option Int) : List α → Nat → List α × Nat × Bool
  | [], num => ([], num, false)
  | x :: xs, num =>
      if limitReached limit num then ([], num, true)
      else
        let r := emitPage limit xs (num + 1)
        (x :: r.1, r.2.1, r.2.2)

/-- The outer `for page_number in range(1, self._total_page_count + 1)`
loop of `Chrono24._search`, iterated over the explicit list of page
numbers.  `pages p` is the list of listings the fetched page `p`
supplies.  Returns the yielded listings together with the log of pages
fetched inside the loop (page 1 is fetched before the loop, so the loop
itself fetches only pages other than 1). -/
def forPages {α : Type} (pages : Nat → List α) (limit : Option Int) :
    List Nat → Nat → List α × List Nat
  | [], _ => ([], [])
  | p :: rest, num =>
      let fetchedHere : List Nat := if p = 1 then [] else [p]
      let e := emitPage limit (pages p) num
      if e.2.2 then (e.1, fetchedHere)
      else
        let r := forPages pages limit rest e.2.1
        (e.1 ++ r.1, fetchedHere ++ r.2)

/-- `Chrono24._search`, abstracted over the listings each fetched page
supplies.  Returns the stream of yielded listings and the full log of
listing-page fetches in order (the fetch of page 1 made before the loop
included). -/
def _search {α : Type} (pages : Nat → List α) (count : Nat) (limit : Option Int) :
    List α × List Nat :=
  let r := forPages pages limit (List.range' 1 (total_page_count count)) 0
  (r.1, 1 :: r.2)

/-! ## chrono24/api.py : `Listings._get_total_count` -/

/-- Outcome of `json.loads` plus the nested key accesses and `int`
conversion applied to the regex-captured `window.metaData` payload:
`parseFail` models a `json.JSONDecodeError`, `keyFail` models a missing
`data`/`searchResult`/`numResult` key or an `int()` conversion failure,
and `count n` is the successfully extracted
`int(metadata["data"]["searchResult"]["numResult"])`. -/
inductive MetaJson where
  | parseFail
  | keyFail
  | count (n : Int)
deriving DecidableEq

/-- The script tag holding `window.metaData`, as `_get_total_count`
observes it: `metaMatch` is the result of searching the tag text with
the pattern `window.metaData = ({.*?});`, `none` when the pattern does
not match. -/
structure ScriptTag where
  metaMatch : Option MetaJson
deriving DecidableEq

/-- A page-1 document, as `_get_total_count` observes it: the script
tag found by `html.find("script", string=re.compile("window.metaData"))`,
or `none` when no such tag exists (in which case `script.text` raises
`AttributeError`). -/
structure Page1Doc where
  script : Option ScriptTag
deriving DecidableEq

/-- `Listings._get_total_count`, statement by statement: a missing
script tag makes `script.text` raise `AttributeError`; a non-matching
pattern falls through to `raise NoListingsFoundException`; a matching
but unparseable payload raises from `json.loads` or from the key
accesses; a parsed count is returned only when it is positive,
otherwise the code falls through to `raise NoListingsFoundException`. -/
def _get_total_count (doc : Page1Doc) : Except PyErr Int :=
  match doc.script with
  | none => .error .attrError
  | some s =>
    match s.metaMatch with
    | none => .error .noListings
    | some .parseFail => .error .jsonDecodeError
    | some .keyFail => .error .keyError
    | some (.count n) => if n > 0 then .ok n else .error .noListings

/-! ## chrono24/api.py : `Chrono24._get_listings_with_attempts` -/

/-- The `while attempts < max_attempts` retry loop of
`_get_listings_with_attempts`.  `tries a` is the outcome of attempt `a`
(0-based): `.ok l` when `Listings(get_html(url))` is constructed and
`next(listings.htmls)` finds a listing, `.error .attrError` when the
listings container (or the metadata script) is missing and an
`AttributeError` is raised, and any other `.error e` for an exception
the `except AttributeError` clause does not catch.  When the loop
condition fails the Python function falls off its end and implicitly
returns `None`, modelled as `.ok none`. -/
def attemptsLoop {α : Type} (tries : Nat → Except PyErr α) (max_attempts attempts : Nat) :
    Except PyErr (Option α) :=
  if h : attempts < max_attempts then
    match tries attempts with
    | .ok l => .ok (some l)
    | .error .attrError => attemptsLoop tries max_attempts (attempts + 1)
    | .error e => .error e
  else
    .ok none
termination_by max_attempts - attempts
decreasing_by omega

/-- `Chrono24._get_listings_with_attempts` (its caller `_get_listings`
always passes `max_attempts=8`). -/
def _get_listings_with_attempts {α : Type} (tries : Nat → Except PyErr α)
    (max_attempts : Nat) : Except PyErr (Option α) :=
  attemptsLoop tries max_attempts 0

/-! ## chrono24/api.py : text helpers and the shipping-price regex

`RE_PATTERN_COMMA_SEPARATED_NUM` is the raw pattern
`\b\d dup 1..3 (?:,\d dup 3)*\b`; the functions below implement
`re.search` of that pattern over a list of characters with the Python
engine semantics: positions are scanned left to right, the counted
digit repetition and the group star are greedy with backtracking, and
`\b` is a word-boundary assertion (`\w` taken as alphanumeric or
underscore, the ASCII fragment of the Python definition). -/

/-- Sentinel for missing or blank extracted text (`NULL_VALUE = "null"`). -/
def NULL_VALUE : String := "null"

/-- The whitespace characters Python `str.strip` removes (ASCII
fragment). -/
def pyIsSpace (c : Char) : Bool :=
  c = ' ' || c = '\t' || c = '\n' || c = '\r' || c = '\x0B' || c = '\x0C'

/-- Python `str.strip`: remove leading and trailing whitespace. -/
def pyStrip (s : String) : String :=
  String.mk (((s.data.dropWhile pyIsSpace).reverse.dropWhile pyIsSpace).reverse)

/-- `get_html_tag_as_text`: the stripped text of a tag, `NULL_VALUE`
when the tag is absent or its stripped text is empty.  The tag is
modelled by its raw text content. -/
def get_html_tag_as_text (tag : Option String) : String :=
  match tag with
  | none => NULL_VALUE
  | some t => if pyStrip t = "" then NULL_VALUE else pyStrip t

/-- `get_html_tag_attribute_as_text`: the stripped attribute value of a
tag, `NULL_VALUE` when the tag is absent or the (defaulted) attribute
value strips to the empty string.  The tag is modelled by its raw
attribute value, with a missing attribute defaulting to `""` exactly as
`html_tag.get(attr, "")` does. -/
def get_html_tag_attribute_as_text (tag : Option String) : String :=
  match tag with
  | none => NULL_VALUE
  | some t => if pyStrip t = "" then NULL_VALUE else pyStrip t

/-- The `\w` character class (ASCII fragment): letters, digits, underscore. -/
def isWordChar (c : Char) : Bool := c.isAlphanum || c = '_'

/-- The `\b` assertion between an optional previous and next character:
exactly one side is a word character. -/
def isBoundary (prev next : Option Char) : Bool :=
  (prev.elim false isWordChar) != (next.elim false isWordChar)

/-- The `\b` assertion right after a digit: it holds when the rest of
the input is empty or starts with a non-word character. -/
def digitBoundary (rest : List Char) : Bool :=
  match rest with
  | [] => true
  | c :: _ => !isWordChar c

/-- The greedy `(?:,\d dup 3)*` star followed by the closing `\b`,
with backtracking: each level first tries to consume one more `,ddd`
group; if the remainder fails it falls back to ending the star here,
which succeeds exactly when the closing boundary assertion holds at
this point.  Returns the consumed group characters and the remaining
input. -/
def matchStar : List Char → Option (List Char × List Char)
  | ',' :: a :: b :: c :: rest =>
      if a.isDigit && b.isDigit && c.isDigit then
        match matchStar rest with
        | some (gs, r) => some (',' :: a :: b :: c :: gs, r)
        | none =>
            if digitBoundary (',' :: a :: b :: c :: rest) then
              some ([], ',' :: a :: b :: c :: rest)
            else none
      else
        if digitBoundary (',' :: a :: b :: c :: rest) then
          some ([], ',' :: a :: b :: c :: rest)
        else none
  | rest =>
      if digitBoundary rest then some ([], rest) else none

/-- Consume exactly `n` digits from the front of the input. -/
def takeDigits : Nat → List Char → Option (List Char × List Char)
  | 0, rest => some ([], rest)
  | _ + 1, [] => none
  | n + 1, c :: rest =>
      if c.isDigit then
        match takeDigits n rest with
        | some (ds, r) => some (c :: ds, r)
        | none => none
      else none

/-- One alternative of the counted repetition `\d dup 1..3`: consume
exactly `n` digits, then run the star and closing boundary.  Returns
the full matched token. -/
def tryDigitCount (n : Nat) (s : List Char) : Option (List Char) :=
  match takeDigits n s with
  | none => none
  | some (ds, rest) =>
    match matchStar rest with
    | some (gs, _) => some (ds ++ gs)
    | none => none

/-- The pattern body after the opening `\b`, at the current position:
the greedy counted repetition tries three digits first, then two, then
one, backtracking through the star each time. -/
def matchAt (s : List Char) : Option (List Char) :=
  match tryDigitCount 3 s with
  | some tok => some tok
  | none =>
    match tryDigitCount 2 s with
    | some tok => some tok
    | none => tryDigitCount 1 s

/-- `re.search` of `RE_PATTERN_COMMA_SEPARATED_NUM`: scan candidate
start positions left to right, keeping the previous character for the
opening word-boundary assertion, and return the first token the pattern
matches. -/
def reSearch (prev : Option Char) : List Char → Option (List Char)
  | [] => none
  | c :: rest =>
    match (if isBoundary prev (some c) then matchAt (c :: rest) else none) with
    | some tok => some tok
    | none => reSearch (some c) rest

/-- `StandardListing._shipping_price`: the muted-caption tag text is
normalized through `get_html_tag_as_text`, searched with the
comma-separated-number pattern, and formatted as
`f-string dollar (match.group() if match else "0")`. -/
def _shipping_price (mutedCaption : Option String) : String :=
  let text := get_html_tag_as_text mutedCaption
  match reSearch none text.data with
  | some tok => "$" ++ String.mk tok
  | none => "$" ++ "0"

/-! ## chrono24/api.py : `StandardListing._image_urls` -/

/-- Python `str.lower` on one character (ASCII fragment): an upper-case
letter is shifted into the lower-case range, anything else is kept. -/
def pyCharLower (c : Char) : Char :=
  if 'A' ≤ c ∧ c ≤ 'Z' then Char.ofNat (c.toNat + 32) else c

/-- Python `str.lower` over the character list of a string. -/
def pyLower (s : List Char) : List Char := s.map pyCharLower

/-- Does `s` start with `pat`? -/
def startsWithL (pat s : List Char) : Bool := decide (s.take pat.length = pat)

/-- Worker for Python `str.replace`: scan left to right, replacing each
non-overlapping occurrence of `pat`.  The fuel argument only bounds the
recursion; each step consumes at least one character, so a call with
fuel equal to the input length realizes the full scan.  (A guard skips
the replacement for an empty pattern; the patterns the code uses are
non-empty.) -/
def pyReplaceAux (pat rep : List Char) : Nat → List Char → List Char
  | 0, s => s
  | fuel + 1, s =>
      match s with
      | [] => []
      | c :: rest =>
          if startsWithL pat s && !pat.isEmpty then
            rep ++ pyReplaceAux pat rep fuel (s.drop pat.length)
          else c :: pyReplaceAux pat rep fuel rest

/-- Python `str.replace pat rep`: replace every occurrence of `pat`,
scanning left to right without overlap. -/
def pyReplace (pat rep s : List Char) : List Char := pyReplaceAux pat rep s.length s

/-- String-level wrapper for `pyLower`. -/
def pyLowerS (s : String) : String := String.mk (pyLower s.data)

/-- String-level wrapper for `pyReplace`. -/
def pyReplaceS (s pat rep : String) : String := String.mk (pyReplace pat.data rep.data s.data)

/-- One `div.js-carousel-cell` node, modelled by the raw
`data-lazy-sweet-spot-master-src` attribute value of its `img` child
(`none` when `image_div.find("img")` is `None`). -/
structure CarouselCell where
  img : Option String
deriving DecidableEq

/-- `StandardListing._image_urls`: for every carousel cell, the lazy
attribute text is taken (with the `NULL_VALUE` fallback), lower-cased,
and then has `"square_size_"` replaced by `"ExtraLarge"` - in that
order, so the replacement text keeps its upper-case letters. -/
def _image_urls (cells : List CarouselCell) : List String :=
  cells.map (fun cell =>
    pyReplaceS (pyLowerS (get_html_tag_attribute_as_text cell.img)) "square_size_" "ExtraLarge")

/-- A string is entirely lower-case when it has no ASCII upper-case
letter. -/
def isAllLower (s : String) : Bool := s.data.all (fun c => !('A' ≤ c ∧ c ≤ 'Z' : Bool))

/-! ## chrono24/api.py : `DetailedListing` logistical details -/

/-- The closed keyword set of `_available_payments`, in the order the
source literal lists it.  (The Python value is a `set`, whose iteration
order is unspecified; every property proved below is independent of
that order.) -/
def payment_keywords : List String :=
  ["visa", "mastercard", "american-express", "bankwire", "affirm"]

/-- Python `pat in hay` substring containment. -/
def containsSub (hay pat : List Char) : Bool :=
  match hay with
  | [] => pat.isEmpty
  | _ :: rest => startsWithL pat hay || containsSub rest pat

/-- One `i.payment-icon` node: `payment.get("data-lazy-class",
payment.get("class", []))`, each attribute a list of class tokens that
`"".join` concatenates. -/
structure PaymentIcon where
  dataLazyClass : Option (List String)
  classAttr : List String
deriving DecidableEq

/-- The `"".join(payment.get("data-lazy-class", payment.get("class", [])))`
expression. -/
def iconClassText (icon : PaymentIcon) : String :=
  String.join (icon.dataLazyClass.getD icon.classAttr)

/-- Python string comparison: lexicographic comparison of the two
character lists by code point. -/
def listLE : List Char → List Char → Bool
  | [], _ => true
  | _ :: _, [] => false
  | a :: as, b :: bs => if a < b then true else if b < a then false else listLE as bs

/-- Python `sorted(set(l))` on strings: the distinct elements in
ascending lexicographic order. -/
def pySortedSet (l : List String) : List String :=
  l.dedup.insertionSort (fun a b => listLE a.data b.data = true)

/-- `DetailedListing._available_payments`: each icon contributes the
first keyword contained in its class text (the inner `break`), and the
collected keywords are de-duplicated and sorted. -/
def _available_payments (icons : List PaymentIcon) : List String :=
  pySortedSet (icons.filterMap (fun icon =>
    payment_keywords.find? (fun k => containsSub (iconClassText icon).data k.data)))

/-- A value of the listing JSON: a string or a list of strings. -/
inductive JVal where
  | s (v : String)
  | l (v : List String)
deriving DecidableEq

/-- A detail page, modelled by the nodes the logistical extractors
inspect: the payment icons, the `span.js-shipping-time` text, the
merchant name / rating / review-count texts, and the badge texts
already pulled out of the embedded `data-content` fragments. -/
structure DetailPage where
  paymentIcons : List PaymentIcon
  shippingTime : Option String
  merchantNameBtn : Option String
  rating : Option String
  reviews : Option String
  badgeTexts : List (Option String)
deriving DecidableEq

/-- `DetailedListing._anticipated_delivery`. -/
def _anticipated_delivery (d : DetailPage) : String :=
  pyReplaceS (get_html_tag_as_text d.shippingTime) "Anticipated delivery: " ""

/-- `DetailedListing._merchant_badges`: badges whose fragment contains
the expected span contribute their text. -/
def _merchant_badges (d : DetailPage) : List String :=
  d.badgeTexts.filterMap (fun b =>
    match b with
    | none => none
    | some t => some (get_html_tag_as_text (some t)))

/-- `DetailedListing._logistical_details`: the fixed logistical fields,
with the key spelling taken verbatim from the source (note the
`availabe_payments` spelling, which the test-suite of the repository
also expects). -/
def _logistical_details (d : DetailPage) : List (String × JVal) :=
  [("availabe_payments", .l (_available_payments d.paymentIcons)),
   ("anticipated_delivery", .s (_anticipated_delivery d)),
   ("merchant_name", .s (get_html_tag_as_text d.merchantNameBtn)),
   ("merchant_rating", .s (get_html_tag_as_text d.rating)),
   ("merchant_reviews", .s (get_html_tag_as_text d.reviews)),
   ("merchant_badges", .l (_merchant_badges d))]

/-! ## Specification-side vocabulary

The definitions below are written from the words of the specification,
not from the code; the claim theorems relate them to the embedded
source functions above. -/

/-- `t` is a prefix of `u`. -/
def listPre (t u : List Char) : Prop := ∃ r, u = t ++ r

/-- The position at the head of `u` is not a word character (either the
input ended or the next character is non-word): the declarative reading
of a word boundary placed right after a word character. -/
def NonWordHead (u : List Char) : Prop :=
  ∀ c, u.head? = some c → isWordChar c = false

/-- The `(,ddd)*` tail of a comma-grouped numeric token: zero or more
groups of a comma followed by exactly three digits. -/
inductive CommaGroups : List Char → Prop
  | nil : CommaGroups []
  | grp (a b c : Char) (rest : List Char) :
      a.isDigit = true → b.isDigit = true → c.isDigit = true →
      CommaGroups rest → CommaGroups (',' :: a :: b :: c :: rest)

/-- A comma-grouped numeric token: one to three digits followed by zero
or more comma-separated three-digit groups. -/
def IsCommaToken (tok : List Char) : Prop :=
  ∃ ds gs, tok = ds ++ gs ∧ ds ≠ [] ∧ ds.length ≤ 3 ∧
    (∀ c ∈ ds, c.isDigit = true) ∧ CommaGroups gs

/-- `t` is a comma-grouped numeric token sitting at the start of `u`,
with the closing word boundary holding right after it. -/
def ValidTokenFrom (u t : List Char) : Prop :=
  IsCommaToken t ∧ listPre t u ∧ NonWordHead (u.drop t.length)

/-- `t` is a comma-grouped numeric token found at position `i` of `s`:
it sits there with its closing boundary, and the opening word boundary
holds (start of input or a non-word character right before). -/
def TokenAt (s : List Char) (i : Nat) (t : List Char) : Prop :=
  ValidTokenFrom (s.drop i) t ∧ (i = 0 ∨ NonWordHead (s.drop (i - 1)))

/-- `t` is the first comma-grouped numeric token of `s`: it occurs at a
position no later than any other token, and among the tokens at that
position it is a longest one - the token the left-to-right greedy
search finds. -/
def FirstTokenIs (s t : List Char) : Prop :=
  ∃ i, TokenAt s i t ∧ (∀ j u, TokenAt s j u → i ≤ j) ∧
    (∀ u, TokenAt s i u → u.length ≤ t.length)

/-- The character just before position `i` of `s`, where `prev` is the
character before position 0 (if any): the left context the scanning
search carries along. -/
def prevAt (prev : Option Char) (s : List Char) (i : Nat) : Option Char :=
  if i = 0 then prev else (s.drop (i - 1)).head?

/-- `t` is a comma-grouped numeric token found at position `i` of `s`,
relative to a left context `prev` for the opening boundary of a token
at position 0. -/
def TokAtP (prev : Option Char) (s : List Char) (i : Nat) (t : List Char) : Prop :=
  ValidTokenFrom (s.drop i) t ∧ ∀ c, prevAt prev s i = some c → isWordChar c = false

/-- Ceiling division, as the specification writes `ceil(L / page_size)`. -/
def natCeilDiv (a b : Nat) : Nat := (a + b - 1) / b

/-! ## Concrete instances used by witnesses and counterexamples -/

/-- A query with a single listing: page 1 supplies one listing. -/
def onePage : Nat → List Nat := fun _ => [0]

/-- A query with 121 listings: page 1 supplies 120 listings and page 2
supplies the remaining one. -/
def pages121 : Nat → List Nat :=
  fun p => if p = 1 then List.range 120 else if p = 2 then [100000] else []

/-- A detail page with a single visa payment icon. -/
def visaDetailPage : DetailPage :=
  { paymentIcons := [{ dataLazyClass := some ["payment-icon-visa"], classAttr := [] }]
    shippingTime := some "Anticipated delivery: 5 days"
    merchantNameBtn := some "Shop"
    rating := some "4.8"
    reviews := some "12"
    badgeTexts := [] }

/-! # Theorems -/

/-! ## Generic facts about the pagination loop -/

theorem limitReached_none (num : Nat) : limitReached none num = false := rfl

theorem limitReached_some_zero (num : Nat) : limitReached (some 0) num = false := by
  simp [limitReached]

theorem emitPage_untruthy {α : Type} (limit : Option Int)
    (h : ∀ num, limitReached limit num = false) (xs : List α) (num : Nat) :
    emitPage limit xs num = (xs, num + xs.length, false) := by
  induction xs generalizing num with
  | nil => simp [emitPage]
  | cons x xs ih =>
      simp only [emitPage, h, if_neg, Bool.false_eq_true, not_false_iff, ite_false, ih]
      simp only [List.length_cons, Prod.mk.injEq, true_and, and_true]
      omega

theorem emitPage_congr {α : Type} (l₁ l₂ : Option Int)
    (h : ∀ num, limitReached l₁ num = limitReached l₂ num) (xs : List α) (num : Nat) :
    emitPage l₁ xs num = emitPage l₂ xs num := by
  induction xs generalizing num with
  | nil => rfl
  | cons x xs ih => simp only [emitPage, h, ih]

theorem forPages_congr {α : Type} (pages : Nat → List α) (l₁ l₂ : Option Int)
    (h : ∀ num, limitReached l₁ num = limitReached l₂ num) (ps : List Nat) (num : Nat) :
    forPages pages l₁ ps num = forPages pages l₂ ps num := by
  induction ps generalizing num with
  | nil => rfl
  | cons p ps ih => simp only [forPages, emitPage_congr l₁ l₂ h, ih]

/-- C10: a limit of 0 is falsy in Python, so `search` with `limit=0`
behaves exactly like `search` with no limit: the guard
`if limit and num_listings_yielded >= limit` never fires and every
available record is yielded. -/
theorem c10_limit_zero_is_no_limit {α : Type} (pages : Nat → List α) (count : Nat) :
    _search pages count (some 0) = _search pages count none := by
  unfold _search
  rw [forPages_congr pages (some 0) none (by intro num; simp [limitReached])]

/-! ## C6: total page count -/

/-- C6: the computed total page count is
`floor(total_count / page_size) + 1` with `page_size = 120`; in
particular `total_count = 361` gives `total_pages = 4`. -/
theorem c6_total_page_count_floor (c : Nat) :
    Nat.floor ((c : ℚ) / (page_size : ℚ)) + 1 = total_page_count c ∧
    page_size = 120 ∧ total_page_count 361 = 4 := by
  refine ⟨?_, rfl, rfl⟩
  rw [Nat.floor_div_nat]
  rfl

/-! ## C4: the listings-retry loop returns None on exhaustion -/

theorem attemptsLoop_attrError {α : Type} (m : Nat) :
    ∀ k a, m - a ≤ k →
      attemptsLoop (fun _ => (.error .attrError : Except PyErr α)) m a = .ok none := by
  intro k
  induction k with
  | zero =>
      intro a ha
      rw [attemptsLoop]
      have h : ¬ a < m := by omega
      simp [h]
  | succ k ih =>
      intro a ha
      rw [attemptsLoop]
      by_cases h : a < m
      · simpa [h] using ih (a + 1) (by omega)
      · simp [h]

/-- C4: when every attempt raises `AttributeError` (the listings
container is missing on each fetch of the page), the retry loop of
`_get_listings_with_attempts` exhausts its `max_attempts` (8 from the
caller `_get_listings`) and the function falls off the end of its
`while` loop, implicitly returning Python `None` - a non-error value,
not the `NoListingsFoundException` the specification prescribes. -/
theorem c4_exhausted_attempts_return_none :
    (∀ m : Nat,
      _get_listings_with_attempts (fun _ => (.error .attrError : Except PyErr Unit)) m = .ok none) ∧
    _get_listings_with_attempts (fun _ => (.error .attrError : Except PyErr Unit)) 8 = .ok none ∧
    (Except.ok none : Except PyErr (Option Unit)) ≠ .error .noListings := by
  refine ⟨?_, ?_, by simp⟩
  · intro m
    exact attemptsLoop_attrError m m 0 (by omega)
  · exact attemptsLoop_attrError 8 8 0 (by omega)

/-! ## C5: error classes escaping `_get_total_count` -/

/-- C5 counterexample: on a page-1 document with no `window.metaData`
script tag, `_get_total_count` raises `AttributeError`
(`script.text` on `None`), not the no-listings error the claim
prescribes for the absent-metadata case. -/
theorem c5_counterexample_absent_script :
    _get_total_count { script := none } = .error .attrError ∧
    (Except.error PyErr.attrError : Except PyErr Int) ≠ .error .noListings := by
  exact ⟨rfl, by simp⟩

/-- C5 (amended): `_get_total_count` raises the no-listings error
exactly when the metadata script tag is present but its pattern does
not match or the parsed count is non-positive; a successful return is
always positive; an absent script tag instead escapes with
`AttributeError`, and an unparseable payload with a JSON decode error,
so error kinds other than no-listings can escape the extraction. -/
theorem c5_total_count_error_classes (doc : Page1Doc) :
    (_get_total_count doc = .error .noListings ↔
      ∃ s, doc.script = some s ∧
        (s.metaMatch = none ∨ ∃ n, s.metaMatch = some (.count n) ∧ n ≤ 0)) ∧
    (∀ n, _get_total_count doc = .ok n → 0 < n) ∧
    (doc.script = none → _get_total_count doc = .error .attrError) ∧
    (∀ s, doc.script = some s → s.metaMatch = some .parseFail →
      _get_total_count doc = .error .jsonDecodeError) := by
  obtain ⟨script⟩ := doc
  cases script with
  | none => simp [_get_total_count]
  | some s =>
      obtain ⟨mm⟩ := s
      cases mm with
      | none => simp [_get_total_count]
      | some mj =>
          cases mj with
          | parseFail => simp [_get_total_count]
          | keyFail => simp [_get_total_count]
          | count n =>
              by_cases h : n > 0 <;> simp [_get_total_count, h] <;> omega

/-- Witness for the amended C5 theorem, at the document with no script
tag. -/
theorem c5_total_count_error_classes_witness :
    _get_total_count { script := none } = .error .attrError :=
  (c5_total_count_error_classes { script := none }).2.2.1 rfl

/-! ## C3: the retry contract of `get_response` -/

theorem tenacityLoop_ok_eq (outcome : Nat → AttemptOutcome) (m n : Nat) (b : String)
    (h : outcome n = .ok b) : tenacityLoop outcome m n = .body b := by
  rw [tenacityLoop, h]

theorem tenacityLoop_nonTransient_eq (outcome : Nat → AttemptOutcome) (m n : Nat) (e : String)
    (h : outcome n = .nonTransient e) : tenacityLoop outcome m n = .propagated e := by
  rw [tenacityLoop, h]

theorem tenacityLoop_transient_step (outcome : Nat → AttemptOutcome) (m n : Nat)
    (h : isTransient (outcome n) = true) :
    tenacityLoop outcome m n =
      if m ≤ n then .raised .requestFailure else tenacityLoop outcome m (n + 1) := by
  rw [tenacityLoop]
  cases ho : outcome n <;> rw [ho] at h <;> simp [isTransient] at h <;> rfl

theorem tenacityLoop_raised_iff (outcome : Nat → AttemptOutcome) (m : Nat) :
    ∀ k n, m - n ≤ k →
      (tenacityLoop outcome m n = .raised .requestFailure ↔
        ∀ j, n ≤ j → j ≤ max n m → isTransient (outcome j) = true) := by
  intro k
  induction k with
  | zero =>
      intro n hk
      have hmn : m ≤ n := by omega
      have hmax : max n m = n := by omega
      rw [hmax]
      cases ho : outcome n with
      | ok b =>
          rw [tenacityLoop_ok_eq outcome m n b ho]
          constructor
          · intro hcon; exact absurd hcon (by simp)
          · intro hall
            have := hall n le_rfl le_rfl
            rw [ho] at this
            exact absurd this (by simp [isTransient])
      | nonTransient e =>
          rw [tenacityLoop_nonTransient_eq outcome m n e ho]
          constructor
          · intro hcon; exact absurd hcon (by simp)
          · intro hall
            have := hall n le_rfl le_rfl
            rw [ho] at this
            exact absurd this (by simp [isTransient])
      | connectionError =>
          rw [tenacityLoop_transient_step outcome m n (by rw [ho]; rfl), if_pos hmn]
          constructor
          · intro _ j h1 h2
            have hj : j = n := by omega
            rw [hj, ho]; rfl
          · intro _; rfl
      | httpError =>
          rw [tenacityLoop_transient_step outcome m n (by rw [ho]; rfl), if_pos hmn]
          constructor
          · intro _ j h1 h2
            have hj : j = n := by omega
            rw [hj, ho]; rfl
          · intro _; rfl
      | requestsException =>
          rw [tenacityLoop_transient_step outcome m n (by rw [ho]; rfl), if_pos hmn]
          constructor
          · intro _ j h1 h2
            have hj : j = n := by omega
            rw [hj, ho]; rfl
          · intro _; rfl
  | succ k ih =>
      intro n hk
      by_cases hmn : m ≤ n
      · exact ih n (by omega)
      · have hlt : n < m := by omega
        have hmax : max n m = m := by omega
        rw [hmax]
        cases ho : outcome n with
        | ok b =>
            rw [tenacityLoop_ok_eq outcome m n b ho]
            constructor
            · intro hcon; exact absurd hcon (by simp)
            · intro hall
              have := hall n le_rfl (by omega)
              rw [ho] at this
              exact absurd this (by simp [isTransient])
        | nonTransient e =>
            rw [tenacityLoop_nonTransient_eq outcome m n e ho]
            constructor
            · intro hcon; exact absurd hcon (by simp)
            · intro hall
              have := hall n le_rfl (by omega)
              rw [ho] at this
              exact absurd this (by simp [isTransient])
        | connectionError =>
            rw [tenacityLoop_transient_step outcome m n (by rw [ho]; rfl), if_neg hmn,
              ih (n + 1) (by omega)]
            have hmax2 : max (n + 1) m = m := by omega
            rw [hmax2]
            constructor
            · intro hall j h1 h2
              rcases Nat.eq_or_lt_of_le h1 with rfl | hlt2
              · rw [ho]; rfl
              · exact hall j (by omega) h2
            · intro hall j h1 h2
              exact hall j (by omega) h2
        | httpError =>
            rw [tenacityLoop_transient_step outcome m n (by rw [ho]; rfl), if_neg hmn,
              ih (n + 1) (by omega)]
            have hmax2 : max (n + 1) m = m := by omega
            rw [hmax2]
            constructor
            · intro hall j h1 h2
              rcases Nat.eq_or_lt_of_le h1 with rfl | hlt2
              · rw [ho]; rfl
              · exact hall j (by omega) h2
            · intro hall j h1 h2
              exact hall j (by omega) h2
        | requestsException =>
            rw [tenacityLoop_transient_step outcome m n (by rw [ho]; rfl), if_neg hmn,
              ih (n + 1) (by omega)]
            have hmax2 : max (n + 1) m = m := by omega
            rw [hmax2]
            constructor
            · intro hall j h1 h2
              rcases Nat.eq_or_lt_of_le h1 with rfl | hlt2
              · rw [ho]; rfl
              · exact hall j (by omega) h2
            · intro hall j h1 h2
              exact hall j (by omega) h2

theorem tenacityLoop_propagated_iff (outcome : Nat → AttemptOutcome) (m : Nat) (e : String) :
    ∀ k n, m - n ≤ k →
      (tenacityLoop outcome m n = .propagated e ↔
        ∃ j, n ≤ j ∧ j ≤ max n m ∧ outcome j = .nonTransient e ∧
          ∀ i, n ≤ i → i < j → isTransient (outcome i) = true) := by
  intro k
  induction k with
  | zero =>
      intro n hk
      have hmn : m ≤ n := by omega
      have hmax : max n m = n := by omega
      rw [hmax]
      cases ho : outcome n with
      | ok b =>
          rw [tenacityLoop_ok_eq outcome m n b ho]
          constructor
          · intro hcon; exact absurd hcon (by simp)
          · rintro ⟨j, h1, h2, h3, _⟩
            have hj : j = n := by omega
            rw [hj, ho] at h3
            exact absurd h3 (by simp)
      | nonTransient e0 =>
          rw [tenacityLoop_nonTransient_eq outcome m n e0 ho]
          constructor
          · intro heq
            have he : e0 = e := by
              cases heq
              rfl
            exact ⟨n, le_rfl, le_rfl, by rw [ho, he], fun i h1 h2 => absurd h2 (by omega)⟩
          · rintro ⟨j, h1, h2, h3, _⟩
            have hj : j = n := by omega
            rw [hj, ho] at h3
            cases h3
            rfl
      | connectionError =>
          rw [tenacityLoop_transient_step outcome m n (by rw [ho]; rfl), if_pos hmn]
          constructor
          · intro hcon; exact absurd hcon (by simp)
          · rintro ⟨j, h1, h2, h3, _⟩
            have hj : j = n := by omega
            rw [hj, ho] at h3
            exact absurd h3 (by simp)
      | httpError =>
          rw [tenacityLoop_transient_step outcome m n (by rw [ho]; rfl), if_pos hmn]
          constructor
          · intro hcon; exact absurd hcon (by simp)
          · rintro ⟨j, h1, h2, h3, _⟩
            have hj : j = n := by omega
            rw [hj, ho] at h3
            exact absurd h3 (by simp)
      | requestsException =>
          rw [tenacityLoop_transient_step outcome m n (by rw [ho]; rfl), if_pos hmn]
          constructor
          · intro hcon; exact absurd hcon (by simp)
          · rintro ⟨j, h1, h2, h3, _⟩
            have hj : j = n := by omega
            rw [hj, ho] at h3
            exact absurd h3 (by simp)
  | succ k ih =>
      intro n hk
      by_cases hmn : m ≤ n
      · exact ih n (by omega)
      · have hlt : n < m := by omega
        have hmax : max n m = m := by omega
        rw [hmax]
        cases ho : outcome n with
        | ok b =>
            rw [tenacityLoop_ok_eq outcome m n b ho]
            constructor
            · intro hcon; exact absurd hcon (by simp)
            · rintro ⟨j, h1, h2, h3, h4⟩
              rcases Nat.eq_or_lt_of_le h1 with rfl | hlt2
              · rw [ho] at h3; exact absurd h3 (by simp)
              · have := h4 n le_rfl hlt2
                rw [ho] at this
                exact absurd this (by simp [isTransient])
        | nonTransient e0 =>
            rw [tenacityLoop_nonTransient_eq outcome m n e0 ho]
            constructor
            · intro heq
              have he : e0 = e := by
                cases heq
                rfl
              exact ⟨n, le_rfl, by omega, by rw [ho, he], fun i h1 h2 => absurd h2 (by omega)⟩
            · rintro ⟨j, h1, h2, h3, h4⟩
              rcases Nat.eq_or_lt_of_le h1 with rfl | hlt2
              · rw [ho] at h3
                cases h3
                rfl
              · have := h4 n le_rfl hlt2
                rw [ho] at this
                exact absurd this (by simp [isTransient])
        | connectionError =>
            rw [tenacityLoop_transient_step outcome m n (by rw [ho]; rfl), if_neg hmn,
              ih (n + 1) (by omega)]
            have hmax2 : max (n + 1) m = m := by omega
            rw [hmax2]
            constructor
            · rintro ⟨j, h1, h2, h3, h4⟩
              refine ⟨j, by omega, h2, h3, fun i hi1 hi2 => ?_⟩
              rcases Nat.eq_or_lt_of_le hi1 with rfl | hlt2
              · rw [ho]; rfl
              · exact h4 i (by omega) hi2
            · rintro ⟨j, h1, h2, h3, h4⟩
              rcases Nat.eq_or_lt_of_le h1 with rfl | hlt2
              · rw [ho] at h3; exact absurd h3 (by simp)
              · exact ⟨j, by omega, h2, h3, fun i hi1 hi2 => h4 i (by omega) hi2⟩
        | httpError =>
            rw [tenacityLoop_transient_step outcome m n (by rw [ho]; rfl), if_neg hmn,
              ih (n + 1) (by omega)]
            have hmax2 : max (n + 1) m = m := by omega
            rw [hmax2]
            constructor
            · rintro ⟨j, h1, h2, h3, h4⟩
              refine ⟨j, by omega, h2, h3, fun i hi1 hi2 => ?_⟩
              rcases Nat.eq_or_lt_of_le hi1 with rfl | hlt2
              · rw [ho]; rfl
              · exact h4 i (by omega) hi2
            · rintro ⟨j, h1, h2, h3, h4⟩
              rcases Nat.eq_or_lt_of_le h1 with rfl | hlt2
              · rw [ho] at h3; exact absurd h3 (by simp)
              · exact ⟨j, by omega, h2, h3, fun i hi1 hi2 => h4 i (by omega) hi2⟩
        | requestsException =>
            rw [tenacityLoop_transient_step outcome m n (by rw [ho]; rfl), if_neg hmn,
              ih (n + 1) (by omega)]
            have hmax2 : max (n + 1) m = m := by omega
            rw [hmax2]
            constructor
            · rintro ⟨j, h1, h2, h3, h4⟩
              refine ⟨j, by omega, h2, h3, fun i hi1 hi2 => ?_⟩
              rcases Nat.eq_or_lt_of_le hi1 with rfl | hlt2
              · rw [ho]; rfl
              · exact h4 i (by omega) hi2
            · rintro ⟨j, h1, h2, h3, h4⟩
              rcases Nat.eq_or_lt_of_le h1 with rfl | hlt2
              · rw [ho] at h3; exact absurd h3 (by simp)
              · exact ⟨j, by omega, h2, h3, fun i hi1 hi2 => h4 i (by omega) hi2⟩

/-- C3: `get_response` retries only the transient exception classes of
`RETRY_ARGS` (connection errors, HTTP error statuses, generic
`requests` exceptions): it raises the terminal
`chrono24.exceptions.RequestException` exactly when all `max_attempts`
attempts (default 8) fail transiently; it propagates a non-transient
exception raised at attempt `j` unchanged exactly when every earlier
attempt failed transiently (so it is never retried); and the terminal
request-failure error is a distinct kind from the no-listings error. -/
theorem c3_fetch_retry_contract (outcome : Nat → AttemptOutcome) (m : Nat) (hm : 1 ≤ m) :
    (get_response outcome m = .raised .requestFailure ↔
      ∀ j, 1 ≤ j → j ≤ m → isTransient (outcome j) = true) ∧
    (∀ e, get_response outcome m = .propagated e ↔
      ∃ j, 1 ≤ j ∧ j ≤ m ∧ outcome j = .nonTransient e ∧
        ∀ i, 1 ≤ i → i < j → isTransient (outcome i) = true) ∧
    PyErr.requestFailure ≠ PyErr.noListings ∧
    defaultMaxAttempts = 8 := by
  have hmax : max 1 m = m := by omega
  refine ⟨?_, ?_, by simp, rfl⟩
  · have h := tenacityLoop_raised_iff outcome m m 1 (by omega)
    rw [hmax] at h
    exact h
  · intro e
    have h := tenacityLoop_propagated_iff outcome m e m 1 (by omega)
    rw [hmax] at h
    exact h

/-- Witness for C3 at a transport that fails with a connection error on
every attempt, with the default bound of 8 attempts. -/
theorem c3_fetch_retry_contract_witness :
    get_response (fun _ => AttemptOutcome.connectionError) 8 = .raised .requestFailure :=
  (c3_fetch_retry_contract (fun _ => AttemptOutcome.connectionError) 8 (by omega)).1.mpr
    (fun _ _ _ => rfl)

/-! ## C1: completeness and ordering of the unlimited search stream -/

theorem forPages_none {α : Type} (pages : Nat → List α) :
    ∀ (ps : List Nat) (num : Nat),
      forPages pages none ps num =
        ((ps.map pages).flatten, ps.filter (fun p => p ≠ 1)) := by
  intro ps
  induction ps with
  | nil => intro num; rfl
  | cons p rest ih =>
      intro num
      rw [forPages]
      rw [emitPage_untruthy none limitReached_none (pages p) num]
      simp only [ih]
      by_cases hp : p = 1
      · subst hp
        simp
      · simp [hp]

theorem sum_min_chunks (c : Nat) :
    ((List.range (c / page_size + 1)).map (fun i => min page_size (c - page_size * i))).sum
      = c := by
  induction c using Nat.strong_induction_on with
  | _ c ih =>
    have hps : (0 : Nat) < page_size := by norm_num [page_size]
    by_cases h : c < page_size
    · have h0 : c / page_size = 0 := Nat.div_eq_of_lt h
      rw [h0]
      have h1 : List.range (0 + 1) = [0] := rfl
      rw [h1]
      simp only [List.map_cons, List.map_nil, List.sum_cons, List.sum_nil]
      omega
    · have hge : page_size ≤ c := by omega
      have hdiv : c / page_size = (c - page_size) / page_size + 1 :=
        Nat.div_eq_sub_div hps hge
      rw [hdiv, List.range_succ_eq_map]
      rw [List.map_cons, List.sum_cons, List.map_map]
      have hmap : ((List.range ((c - page_size) / page_size + 1)).map
          ((fun i => min page_size (c - page_size * i)) ∘ Nat.succ)) =
          ((List.range ((c - page_size) / page_size + 1)).map
          (fun i => min page_size (c - page_size - page_size * i))) := by
        apply List.map_congr_left
        intro i _
        simp only [Function.comp_apply, Nat.succ_eq_add_one]
        have : page_size * (i + 1) = page_size * i + page_size := by ring
        rw [this]
        omega
      rw [hmap, ih (c - page_size) (by omega)]
      omega

/-- C1: with no limit and a positive total count, the search stream is
the concatenation of the listings of pages `1 .. total_pages` in that
order, the walker fetches exactly the pages `1 .. total_pages` in
ascending order once each, and - when each fetched page supplies
`min(page_size, remaining)` listings - the number of records yielded is
exactly the total count. -/
theorem c1_search_completeness {α : Type} (pages : Nat → List α) (c : Nat) (h0 : 0 < c)
    (hp : ∀ p, 1 ≤ p → p ≤ total_page_count c →
      (pages p).length = min page_size (c - page_size * (p - 1))) :
    (_search pages c none).1 = ((List.range' 1 (total_page_count c)).map pages).flatten ∧
    (_search pages c none).2 = List.range' 1 (total_page_count c) ∧
    (_search pages c none).1.length = c := by
  have htp : total_page_count c = (total_page_count c - 1) + 1 := by
    simp only [total_page_count, page_size]
    omega
  have hyields : (_search pages c none).1
      = ((List.range' 1 (total_page_count c)).map pages).flatten := by
    simp only [_search, forPages_none]
  have hlog : (_search pages c none).2 = List.range' 1 (total_page_count c) := by
    simp only [_search, forPages_none]
    rw [htp, List.range'_succ]
    simp only [List.filter_cons]
    norm_num
    intro a h1 h2
    omega
  refine ⟨hyields, hlog, ?_⟩
  rw [hyields, List.length_flatten, List.map_map]
  have hmap : ((List.range' 1 (total_page_count c)).map (List.length ∘ pages)) =
      ((List.range' 1 (total_page_count c)).map
        (fun p => min page_size (c - page_size * (p - 1)))) := by
    apply List.map_congr_left
    intro p hmem
    rw [List.mem_range'_1] at hmem
    exact hp p hmem.1 (by omega)
  rw [hmap]
  rw [List.range'_eq_map_range, List.map_map]
  have hmap2 : ((List.range (total_page_count c)).map
      ((fun p => min page_size (c - page_size * (p - 1))) ∘ (fun i => 1 + i))) =
      ((List.range (total_page_count c)).map
      (fun i => min page_size (c - page_size * i))) := by
    apply List.map_congr_left
    intro i _
    simp only [Function.comp_apply]
    norm_num
  rw [hmap2]
  exact sum_min_chunks c

/-- Witness for C1 at a query with a single listing on a single page. -/
theorem c1_search_completeness_witness :
    (_search onePage 1 none).1.length = 1 ∧ (_search onePage 1 none).2 = [1] := by
  have h := c1_search_completeness onePage 1 (by omega) (by
    intro p h1 h2
    have hp2 : p ≤ 1 := by
      simpa [total_page_count, page_size] using h2
    have : p = 1 := by omega
    subst this
    decide)
  exact ⟨h.2.2, h.2.1⟩

/-! ## C2: limit enforcement and pages fetched -/

theorem limitReached_natCast (L : Nat) (num : Nat) :
    limitReached (some (L : Int)) num = (decide (L ≠ 0) && decide (L ≤ num)) := by
  simp only [limitReached]
  congr 1
  · simp
  · simp [ge_iff_le, Int.ofNat_le]

theorem emitPage_cons_stop {α : Type} (limit : Option Int) (x : α) (xs : List α) (num : Nat)
    (h : limitReached limit num = true) :
    emitPage limit (x :: xs) num = ([], num, true) := by
  simp [emitPage, h]

theorem emitPage_cons_go {α : Type} (limit : Option Int) (x : α) (xs : List α) (num : Nat)
    (h : limitReached limit num = false) :
    emitPage limit (x :: xs) num =
      (x :: (emitPage limit xs (num + 1)).1,
        (emitPage limit xs (num + 1)).2.1, (emitPage limit xs (num + 1)).2.2) := by
  simp [emitPage, h]

theorem emitPage_under_limit {α : Type} (L : Nat) (xs : List α) :
    ∀ num, num + xs.length ≤ L →
      emitPage (some (L : Int)) xs num = (xs, num + xs.length, false) := by
  induction xs with
  | nil => intro num _; simp [emitPage]
  | cons x xs ih =>
      intro num hle
      have hlen : (x :: xs).length = xs.length + 1 := rfl
      rw [hlen] at hle
      have hfalse : limitReached (some (L : Int)) num = false := by
        rw [limitReached_natCast]
        have hn : ¬ L ≤ num := by omega
        simp [hn]
      rw [emitPage_cons_go (some (L : Int)) x xs num hfalse, ih (num + 1) (by omega)]
      simp only [hlen, Prod.mk.injEq, true_and, and_true]
      omega

theorem emitPage_hits_limit {α : Type} (L : Nat) (hL : 0 < L) (xs : List α) :
    ∀ num, num ≤ L → L < num + xs.length →
      emitPage (some (L : Int)) xs num = (xs.take (L - num), L, true) := by
  induction xs with
  | nil =>
      intro num h1 h2
      have : ([] : List α).length = 0 := rfl
      omega
  | cons x xs ih =>
      intro num h1 h2
      have hlen : (x :: xs).length = xs.length + 1 := rfl
      rw [hlen] at h2
      by_cases hnum : L ≤ num
      · have htrue : limitReached (some (L : Int)) num = true := by
          rw [limitReached_natCast]
          have hne : L ≠ 0 := by omega
          simp [hne, hnum]
        rw [emitPage_cons_stop (some (L : Int)) x xs num htrue]
        have hz : L - num = 0 := by omega
        have heq : num = L := by omega
        rw [hz, heq, List.take_zero]
      · have hfalse : limitReached (some (L : Int)) num = false := by
          rw [limitReached_natCast]
          simp [hnum]
        rw [emitPage_cons_go (some (L : Int)) x xs num hfalse,
          ih (num + 1) (by omega) (by omega)]
        have htake : L - num = (L - (num + 1)) + 1 := by omega
        rw [htake, List.take_succ_cons]

theorem page_size_mul_pred (q : Nat) (hq : 1 ≤ q) :
    page_size * (q - 1) + page_size = page_size * q := by
  cases q with
  | zero => omega
  | succ q0 => simp [Nat.mul_succ]

theorem forPages_limit_spec {α : Type} (pages : Nat → List α) (c L : Nat)
    (hL0 : 0 < L) (hLc : L < c)
    (hp : ∀ p, 1 ≤ p → p ≤ total_page_count c →
      (pages p).length = min page_size (c - page_size * (p - 1))) :
    ∀ d p n, 1 ≤ p → p + d = L / page_size + 1 → d + 1 ≤ n →
      p + n ≤ total_page_count c + 1 →
      (forPages pages (some (L : Int)) (List.range' p n) (page_size * (p - 1))).1.length
          = L - page_size * (p - 1) ∧
      (forPages pages (some (L : Int)) (List.range' p n) (page_size * (p - 1))).2.length
          = d + (if p = 1 then 0 else 1) := by
  have hps : (0 : Nat) < page_size := by norm_num [page_size]
  intro d
  induction d with
  | zero =>
      intro p n hp1 hpP hn hptp
      -- p is the final page: the limit is hit inside it
      obtain ⟨n0, rfl⟩ : ∃ n0, n = n0 + 1 := ⟨n - 1, by omega⟩
      rw [List.range'_succ, forPages]
      have hpdiv : p - 1 = L / page_size := by omega
      have hdm : page_size * (L / page_size) + L % page_size = L := Nat.div_add_mod L page_size
      have hmlt : L % page_size < page_size := Nat.mod_lt L hps
      have hnumle : page_size * (p - 1) ≤ L := by rw [hpdiv]; omega
      have hlen : (pages p).length = min page_size (c - page_size * (p - 1)) :=
        hp p hp1 (by omega)
      have hmod : L - page_size * (p - 1) < page_size := by rw [hpdiv]; omega
      have hover : L < page_size * (p - 1) + (pages p).length := by
        rw [hlen]
        omega
      rw [emitPage_hits_limit L hL0 (pages p) (page_size * (p - 1)) hnumle hover]
      constructor
      · simp [List.length_take]
        omega
      · by_cases hone : p = 1 <;> simp [hone]
  | succ d ih =>
      intro p n hp1 hpP hn hptp
      -- p is an intermediate full page
      obtain ⟨n0, rfl⟩ : ∃ n0, n = n0 + 1 := ⟨n - 1, by omega⟩
      rw [List.range'_succ, forPages]
      have hmul := page_size_mul_pred p hp1
      have hple : page_size * p ≤ L := by
        have hdivle : p ≤ L / page_size := by omega
        have h1 : page_size * p ≤ page_size * (L / page_size) :=
          Nat.mul_le_mul_left page_size hdivle
        have hdm : page_size * (L / page_size) + L % page_size = L := Nat.div_add_mod L page_size
        omega
      have hlen : (pages p).length = page_size := by
        rw [hp p hp1 (by omega)]
        omega
      have hemit : emitPage (some (L : Int)) (pages p) (page_size * (p - 1))
          = (pages p, page_size * (p - 1) + (pages p).length, false) :=
        emitPage_under_limit L (pages p) (page_size * (p - 1)) (by rw [hlen]; omega)
      rw [hemit]
      simp only [Bool.false_eq_true, if_false]
      have hnum2 : page_size * (p - 1) + (pages p).length = page_size * ((p + 1) - 1) := by
        rw [hlen]
        simp only [Nat.add_sub_cancel]
        omega
      rw [hnum2]
      have hrec := ih (p + 1) n0 (by omega) (by omega) (by omega) (by omega)
      constructor
      · simp only [List.length_append, hrec.1, hlen]
        simp only [Nat.add_sub_cancel]
        omega
      · simp only [List.length_append, hrec.2]
        have hnotone : ¬ p + 1 = 1 := by omega
        by_cases hone : p = 1
        · simp [hone, hnotone]
        · simp [hone, hnotone]
          omega

/-- C2 (amended): for a limit `0 < L < total_count` (with each fetched
page supplying `min(page_size, remaining)` listings), the stream yields
exactly `L` records, but the number of listing pages fetched is
`floor(L / page_size) + 1`.  This equals `ceil(L / page_size)` whenever
`page_size` does not divide `L`; when it does, the walker fetches one
page more than `ceil(L / page_size)`, because the limit guard runs only
before yielding the next listing, after the next page has already been
fetched. -/
theorem c2_limit_enforcement {α : Type} (pages : Nat → List α) (c L : Nat)
    (hL0 : 0 < L) (hLc : L < c)
    (hp : ∀ p, 1 ≤ p → p ≤ total_page_count c →
      (pages p).length = min page_size (c - page_size * (p - 1))) :
    (_search pages c (some (L : Int))).1.length = L ∧
    (_search pages c (some (L : Int))).2.length = L / page_size + 1 := by
  have hdivle : L / page_size ≤ c / page_size := Nat.div_le_div_right (le_of_lt hLc)
  have hPle : L / page_size + 1 ≤ total_page_count c := by
    simp only [total_page_count]
    omega
  have h := forPages_limit_spec pages c L hL0 hLc hp (L / page_size) 1 (total_page_count c)
    (by omega) (by omega) (by omega) (by omega)
  have hzero : page_size * (1 - 1) = 0 := by norm_num
  rw [hzero] at h
  constructor
  · simpa [_search] using h.1
  · simp only [_search, List.length_cons]
    rw [h.2]
    simp

/-- C2 counterexample: with 121 available listings and `limit = 120`
(a multiple of the page size), the stream yields 120 records but the
walker fetches two listing pages - the limit check only fires after
page 2 has been fetched - whereas the claim asserts only
`ceil(120 / page_size) = 1` page is fetched and that no further page is
fetched once the limit is reached. -/
theorem c2_counterexample_page_boundary :
    (_search pages121 121 (some (120 : Int))).1.length = 120 ∧
    (_search pages121 121 (some (120 : Int))).2 = [1, 2] ∧
    (pages121 1).length = min page_size (121 - page_size * (1 - 1)) ∧
    (pages121 2).length = min page_size (121 - page_size * (2 - 1)) ∧
    total_page_count 121 = 2 ∧
    natCeilDiv 120 page_size = 1 ∧
    (_search pages121 121 (some (120 : Int))).2.length ≠ natCeilDiv 120 page_size := by
  set_option maxRecDepth 10000 in
  decide

/-- Witness for the amended C2 theorem at the same instance: 121
available listings, limit 120. -/
theorem c2_limit_enforcement_witness :
    (_search pages121 121 (some (120 : Int))).1.length = 120 ∧
    (_search pages121 121 (some (120 : Int))).2.length = 120 / page_size + 1 := by
  refine c2_limit_enforcement pages121 121 120 (by omega) (by omega) ?_
  intro p h1 h2
  have h2b : p ≤ 2 := by
    norm_num [total_page_count, page_size] at h2
    omega
  interval_cases p
  · set_option maxRecDepth 10000 in decide
  · set_option maxRecDepth 10000 in decide

/-! ## C7: the shipping-price regex -/

theorem digitBoundary_comma (l : List Char) : digitBoundary (',' :: l) = true := by
  simp only [digitBoundary]
  decide

theorem digitBoundary_iff (r : List Char) : digitBoundary r = true ↔ NonWordHead r := by
  cases r with
  | nil => simp [digitBoundary, NonWordHead]
  | cons c l =>
      simp only [digitBoundary, NonWordHead, List.head?_cons, Bool.not_eq_true']
      constructor
      · intro h c0 hc0
        cases hc0
        exact h
      · intro h
        exact h c rfl

theorem matchStar_grp_some (a b c : Char) (rest gs r : List Char)
    (h : (a.isDigit && b.isDigit && c.isDigit) = true)
    (hrec : matchStar rest = some (gs, r)) :
    matchStar (',' :: a :: b :: c :: rest) = some (',' :: a :: b :: c :: gs, r) := by
  rw [matchStar, h]
  simp [hrec]

theorem matchStar_grp_none (a b c : Char) (rest : List Char)
    (h : (a.isDigit && b.isDigit && c.isDigit) = true)
    (hrec : matchStar rest = none) :
    matchStar (',' :: a :: b :: c :: rest) = some ([], ',' :: a :: b :: c :: rest) := by
  rw [matchStar, h]
  simp [hrec, digitBoundary_comma]

theorem matchStar_grp_nodigits (a b c : Char) (rest : List Char)
    (h : (a.isDigit && b.isDigit && c.isDigit) = false) :
    matchStar (',' :: a :: b :: c :: rest) = some ([], ',' :: a :: b :: c :: rest) := by
  rw [matchStar, h]
  simp [digitBoundary_comma]

theorem matchStar_sound (u : List Char) :
    ∀ gs r, matchStar u = some (gs, r) →
      CommaGroups gs ∧ u = gs ++ r ∧ digitBoundary r = true := by
  induction u using matchStar.induct with
  | case1 a b c rest h gs0 r0 hrec ih =>
      intro gs r hsome
      rw [matchStar_grp_some a b c rest gs0 r0 h hrec] at hsome
      injection hsome with h1
      injection h1 with h2 h3
      subst h2
      subst h3
      obtain ⟨hcg, heq, hb⟩ := ih gs0 r0 hrec
      rw [Bool.and_eq_true, Bool.and_eq_true] at h
      refine ⟨CommaGroups.grp a b c gs0 h.1.1 h.1.2 h.2 hcg, ?_, hb⟩
      simp [heq]
  | case2 a b c rest h hrec hb ih =>
      intro gs r hsome
      rw [matchStar_grp_none a b c rest h hrec] at hsome
      injection hsome with h1
      injection h1 with h2 h3
      subst h2
      subst h3
      exact ⟨CommaGroups.nil, rfl, digitBoundary_comma _⟩
  | case3 a b c rest h hrec hb ih =>
      exact absurd (digitBoundary_comma (a :: b :: c :: rest)) hb
  | case4 a b c rest h hb =>
      intro gs r hsome
      rw [matchStar_grp_nodigits a b c rest (by simpa using h)] at hsome
      injection hsome with h1
      injection h1 with h2 h3
      subst h2
      subst h3
      exact ⟨CommaGroups.nil, rfl, digitBoundary_comma _⟩
  | case5 a b c rest h hb =>
      exact absurd (digitBoundary_comma (a :: b :: c :: rest)) hb
  | case6 rest hshape hb =>
      intro gs r hsome
      rw [matchStar] at hsome
      on_goal 2 => exact hshape
      rw [if_pos hb] at hsome
      injection hsome with h1
      injection h1 with h2 h3
      subst h2
      subst h3
      exact ⟨CommaGroups.nil, rfl, hb⟩
  | case7 rest hshape hb =>
      intro gs r hsome
      rw [matchStar] at hsome
      on_goal 2 => exact hshape
      rw [if_neg hb] at hsome
      cases hsome

theorem matchStar_none (u : List Char) :
    matchStar u = none → ∀ gs r, CommaGroups gs → u = gs ++ r → digitBoundary r = false := by
  induction u using matchStar.induct with
  | case1 a b c rest h gs0 r0 hrec ih =>
      intro hnone
      rw [matchStar_grp_some a b c rest gs0 r0 h hrec] at hnone
      cases hnone
  | case2 a b c rest h hrec hb ih =>
      intro hnone
      rw [matchStar_grp_none a b c rest h hrec] at hnone
      cases hnone
  | case3 a b c rest h hrec hb ih =>
      exact absurd (digitBoundary_comma (a :: b :: c :: rest)) hb
  | case4 a b c rest h hb =>
      intro hnone
      rw [matchStar_grp_nodigits a b c rest (by simpa using h)] at hnone
      cases hnone
  | case5 a b c rest h hb =>
      exact absurd (digitBoundary_comma (a :: b :: c :: rest)) hb
  | case6 rest hshape hb =>
      intro hnone
      rw [matchStar] at hnone
      on_goal 2 => exact hshape
      rw [if_pos hb] at hnone
      cases hnone
  | case7 rest hshape hb =>
      intro _ gs r hcg hsplit
      cases hcg with
      | nil =>
          simp only [List.nil_append] at hsplit
          subst hsplit
          exact Bool.not_eq_true _ ▸ eq_false_of_ne_true hb
      | grp a b c gs0 ha hbb hc hcg0 =>
          exact (hshape a b c (gs0 ++ r) (by simpa using hsplit)).elim

theorem matchStar_maximal (u : List Char) :
    ∀ gs r, matchStar u = some (gs, r) →
      ∀ gs2 r2, CommaGroups gs2 → u = gs2 ++ r2 → digitBoundary r2 = true →
        gs2.length ≤ gs.length := by
  induction u using matchStar.induct with
  | case1 a b c rest h gs0 r0 hrec ih =>
      intro gs r hsome gs2 r2 hcg hsplit hb2
      rw [matchStar_grp_some a b c rest gs0 r0 h hrec] at hsome
      injection hsome with h1
      injection h1 with h2 h3
      subst h2
      subst h3
      cases hcg with
      | nil => simp
      | grp a2 b2 c2 gs3 ha2 hb2d hc2 hcg3 =>
          simp only [List.cons_append] at hsplit
          injection hsplit with e1 hsplit
          injection hsplit with e2 hsplit
          injection hsplit with e3 hsplit
          injection hsplit with e4 hsplit
          have hle := ih gs0 r0 hrec gs3 r2 hcg3 hsplit hb2
          simp only [List.length_cons]
          omega
  | case2 a b c rest h hrec hb ih =>
      intro gs r hsome gs2 r2 hcg hsplit hb2
      rw [matchStar_grp_none a b c rest h hrec] at hsome
      injection hsome with h1
      injection h1 with h2 h3
      subst h2
      cases hcg with
      | nil => simp
      | grp a2 b2 c2 gs3 ha2 hb2d hc2 hcg3 =>
          simp only [List.cons_append] at hsplit
          injection hsplit with e1 hsplit
          injection hsplit with e2 hsplit
          injection hsplit with e3 hsplit
          injection hsplit with e4 hsplit
          have hcon := matchStar_none rest hrec gs3 r2 hcg3 hsplit
          rw [hb2] at hcon
          cases hcon
  | case3 a b c rest h hrec hb ih =>
      exact absurd (digitBoundary_comma (a :: b :: c :: rest)) hb
  | case4 a b c rest h hb =>
      intro gs r hsome gs2 r2 hcg hsplit hb2
      cases hcg with
      | nil => simp
      | grp a2 b2 c2 gs3 ha2 hb2d hc2 hcg3 =>
          simp only [List.cons_append] at hsplit
          injection hsplit with e1 hsplit
          injection hsplit with e2 hsplit
          injection hsplit with e3 hsplit
          injection hsplit with e4 hsplit
          subst e2
          subst e3
          subst e4
          simp [ha2, hb2d, hc2] at h
  | case5 a b c rest h hb =>
      exact absurd (digitBoundary_comma (a :: b :: c :: rest)) hb
  | case6 rest hshape hb =>
      intro gs r hsome gs2 r2 hcg hsplit hb2
      cases hcg with
      | nil => simp
      | grp a2 b2 c2 gs3 ha2 hb2d hc2 hcg3 =>
          exact (hshape a2 b2 c2 (gs3 ++ r2) (by simpa using hsplit)).elim
  | case7 rest hshape hb =>
      intro gs r hsome
      rw [matchStar] at hsome
      on_goal 2 => exact hshape
      rw [if_neg hb] at hsome
      cases hsome

theorem isWordChar_of_digit (c : Char) (h : c.isDigit = true) : isWordChar c = true := by
  simp [isWordChar, Char.isAlphanum, h]

theorem head?_append_of_ne_nil (l1 l2 : List Char) (h : l1 ≠ []) :
    (l1 ++ l2).head? = l1.head? := by
  cases l1 with
  | nil => exact absurd rfl h
  | cons a l => rfl

theorem groups_head_not_digit (gs r : List Char) (hcg : CommaGroups gs)
    (hb : digitBoundary r = true) :
    ∀ c, (gs ++ r).head? = some c → c.isDigit = false := by
  cases hcg with
  | nil =>
      intro c hc
      simp only [List.nil_append] at hc
      rw [digitBoundary_iff] at hb
      have hw := hb c hc
      by_contra hdig
      rw [isWordChar_of_digit c (by simpa using hdig)] at hw
      cases hw
  | grp a b c0 gs0 ha hbd hc0 hcg0 =>
      intro c hc
      simp only [List.cons_append, List.head?_cons] at hc
      injection hc with hc
      subst hc
      decide

theorem takeDigits_sound : ∀ (n : Nat) (u ds r : List Char), takeDigits n u = some (ds, r) →
    ds.length = n ∧ u = ds ++ r ∧ ∀ c ∈ ds, c.isDigit = true := by
  intro n
  induction n with
  | zero =>
      intro u ds r h
      rw [takeDigits] at h
      simp only [Option.some.injEq, Prod.mk.injEq] at h
      obtain ⟨h2, h3⟩ := h
      subst h2
      subst h3
      simp
  | succ n ih =>
      intro u ds r h
      cases u with
      | nil =>
          rw [takeDigits] at h
          cases h
      | cons c rest =>
          rw [takeDigits] at h
          by_cases hc : c.isDigit = true
          · rw [if_pos hc] at h
            cases htd : takeDigits n rest with
            | none => rw [htd] at h; cases h
            | some p =>
                obtain ⟨ds0, r0⟩ := p
                rw [htd] at h
                simp only [Option.some.injEq, Prod.mk.injEq] at h
                obtain ⟨h2, h3⟩ := h
                subst h2
                subst h3
                obtain ⟨hl, he, hd⟩ := ih rest ds0 r0 htd
                refine ⟨by simp [hl], by simp [he], ?_⟩
                intro x hx
                rcases List.mem_cons.mp hx with rfl | hx2
                · exact hc
                · exact hd x hx2
          · rw [if_neg hc] at h
            cases h

theorem takeDigits_of_digits : ∀ (ds r : List Char), (∀ c ∈ ds, c.isDigit = true) →
    takeDigits ds.length (ds ++ r) = some (ds, r) := by
  intro ds
  induction ds with
  | nil =>
      intro r _
      rw [List.length_nil, List.nil_append, takeDigits]
  | cons c ds0 ih =>
      intro r hd
      have hc : c.isDigit = true := hd c (List.mem_cons_self c ds0)
      rw [List.length_cons, List.cons_append, takeDigits, if_pos hc,
        ih r (fun x hx => hd x (List.mem_cons_of_mem c hx))]

theorem tryDigitCount_some (n : Nat) (u tok : List Char) (h : tryDigitCount n u = some tok) :
    ∃ ds gs r, tok = ds ++ gs ∧ u = ds ++ (gs ++ r) ∧ ds.length = n ∧
      (∀ c ∈ ds, c.isDigit = true) ∧ CommaGroups gs ∧ digitBoundary r = true ∧
      matchStar (gs ++ r) = some (gs, r) := by
  cases htd : takeDigits n u with
  | none =>
      simp only [tryDigitCount, htd] at h
      exact Option.noConfusion h
  | some p =>
      obtain ⟨ds, rest⟩ := p
      cases hms : matchStar rest with
      | none =>
          simp only [tryDigitCount, htd, hms] at h
          exact Option.noConfusion h
      | some q =>
          obtain ⟨gs, r⟩ := q
          simp only [tryDigitCount, htd, hms, Option.some.injEq] at h
          subst h
          obtain ⟨hl, he, hd⟩ := takeDigits_sound n u ds rest htd
          obtain ⟨hcg, hrest, hb⟩ := matchStar_sound rest gs r hms
          exact ⟨ds, gs, r, rfl, by rw [he, hrest], hl, hd, hcg, hb, by rw [← hrest]; exact hms⟩

theorem tryDigitCount_none (n : Nat) (u : List Char) (h : tryDigitCount n u = none)
    (ds gs r : List Char) (hu : u = ds ++ (gs ++ r)) (hl : ds.length = n)
    (hd : ∀ c ∈ ds, c.isDigit = true) (hcg : CommaGroups gs)
    (hb : digitBoundary r = true) : False := by
  have htd : takeDigits n u = some (ds, gs ++ r) := by
    rw [hu, ← hl]
    exact takeDigits_of_digits ds (gs ++ r) hd
  cases hms : matchStar (gs ++ r) with
  | none =>
      have hfalse := matchStar_none (gs ++ r) hms gs r hcg rfl
      rw [hb] at hfalse
      cases hfalse
  | some q =>
      obtain ⟨gs1, r1⟩ := q
      simp only [tryDigitCount, htd, hms] at h
      exact Option.noConfusion h

theorem validTokenFrom_decomp (u t : List Char) (h : ValidTokenFrom u t) :
    ∃ ds gs r, t = ds ++ gs ∧ u = ds ++ (gs ++ r) ∧ ds ≠ [] ∧ ds.length ≤ 3 ∧
      (∀ c ∈ ds, c.isDigit = true) ∧ CommaGroups gs ∧ digitBoundary r = true := by
  obtain ⟨⟨ds, gs, htok, hne, hlen, hdig, hcg⟩, ⟨r, hu⟩, hnw⟩ := h
  refine ⟨ds, gs, r, htok, by rw [hu, htok, List.append_assoc], hne, hlen, hdig, hcg, ?_⟩
  rw [digitBoundary_iff]
  have hdrop : u.drop t.length = r := by
    rw [hu, List.drop_left]
  rw [← hdrop]
  exact hnw

theorem validTokenFrom_pack (ds gs r u : List Char) (hu : u = ds ++ (gs ++ r))
    (hne : ds ≠ []) (hlen : ds.length ≤ 3) (hd : ∀ c ∈ ds, c.isDigit = true)
    (hcg : CommaGroups gs) (hb : digitBoundary r = true) :
    ValidTokenFrom u (ds ++ gs) := by
  refine ⟨⟨ds, gs, rfl, hne, hlen, hd, hcg⟩, ⟨r, by rw [hu, List.append_assoc]⟩, ?_⟩
  have hdrop : u.drop (ds ++ gs).length = r := by
    rw [hu, ← List.append_assoc, List.drop_left]
  rw [hdrop]
  exact (digitBoundary_iff r).mp hb

theorem tryDigitCount_max (n : Nat) (u tok : List Char)
    (hsucc : tryDigitCount n u = some tok)
    (hfail : ∀ m, n < m → m ≤ 3 → tryDigitCount m u = none) :
    ∀ t, ValidTokenFrom u t → t.length ≤ tok.length := by
  intro t hvt
  obtain ⟨ds2, gs2, r2, htok2, hu2, hne2, hlen2, hd2, hcg2, hb2⟩ := validTokenFrom_decomp u t hvt
  obtain ⟨ds, gs, r, htok, hu, hlen, hd, hcg, hb, hms⟩ := tryDigitCount_some n u tok hsucc
  have hdrop2 : u.drop ds2.length = gs2 ++ r2 := by
    rw [hu2, List.drop_left]
  rcases lt_trichotomy ds2.length n with hlt | heq | hgt
  · exfalso
    have hne : ds.drop ds2.length ≠ [] := by
      intro hnil
      have hl0 := congrArg List.length hnil
      simp only [List.length_drop, List.length_nil] at hl0
      omega
    have hdig : ∃ c, (u.drop ds2.length).head? = some c ∧ c.isDigit = true := by
      rw [hu, List.drop_append_of_le_length (by omega)]
      rw [head?_append_of_ne_nil _ _ hne, List.head?_drop]
      have hlt2 : ds2.length < ds.length := by omega
      refine ⟨ds.get ⟨ds2.length, hlt2⟩, ?_, ?_⟩
      · simp [List.getElem?_eq_getElem hlt2]
      · exact hd _ (List.get_mem ds ds2.length hlt2)
    obtain ⟨c, hc, hcd⟩ := hdig
    rw [hdrop2] at hc
    have hnd := groups_head_not_digit gs2 r2 hcg2 hb2 c hc
    rw [hcd] at hnd
    cases hnd
  · have hds : ds2 = ds := by
      have e1 : u.take ds2.length = ds2 := by
        rw [hu2]
        exact List.take_left ds2 (gs2 ++ r2)
      have e2 : u.take ds.length = ds := by
        rw [hu]
        exact List.take_left ds (gs ++ r)
      rw [← e1, ← e2, heq, hlen]
    subst hds
    have hrest : gs2 ++ r2 = gs ++ r := by
      have := hu2.symm.trans hu
      exact List.append_cancel_left this
    have hmax := matchStar_maximal (gs ++ r) gs r hms gs2 r2 hcg2 hrest.symm hb2
    rw [htok2, htok]
    simp only [List.length_append]
    omega
  · exfalso
    have hlen3 : ds2.length ≤ 3 := hlen2
    exact tryDigitCount_none ds2.length u (hfail ds2.length hgt hlen3) ds2 gs2 r2 hu2 rfl
      hd2 hcg2 hb2

theorem matchAt_sound (u tok : List Char) (h : matchAt u = some tok) :
    ValidTokenFrom u tok := by
  have hpack : ∀ n, 1 ≤ n → n ≤ 3 → tryDigitCount n u = some tok → ValidTokenFrom u tok := by
    intro n hn1 hn3 hn
    obtain ⟨ds, gs, r, htok, hu, hlen, hd, hcg, hb, _⟩ := tryDigitCount_some n u tok hn
    rw [htok]
    refine validTokenFrom_pack ds gs r u hu ?_ (by omega) hd hcg hb
    intro hnil
    rw [hnil] at hlen
    simp only [List.length_nil] at hlen
    omega
  cases h3 : tryDigitCount 3 u with
  | some t3 =>
      simp only [matchAt, h3, Option.some.injEq] at h
      subst h
      exact hpack 3 (by omega) (by omega) h3
  | none =>
      cases h2 : tryDigitCount 2 u with
      | some t2 =>
          simp only [matchAt, h3, h2, Option.some.injEq] at h
          subst h
          exact hpack 2 (by omega) (by omega) h2
      | none =>
          cases h1 : tryDigitCount 1 u with
          | some t1 =>
              simp only [matchAt, h3, h2, h1, Option.some.injEq] at h
              subst h
              exact hpack 1 (by omega) (by omega) h1
          | none =>
              simp only [matchAt, h3, h2, h1] at h
              exact Option.noConfusion h

theorem matchAt_none (u : List Char) (h : matchAt u = none) :
    ∀ t, ¬ ValidTokenFrom u t := by
  cases h3 : tryDigitCount 3 u with
  | some t3 =>
      simp only [matchAt, h3] at h
      exact Option.noConfusion h
  | none =>
      cases h2 : tryDigitCount 2 u with
      | some t2 =>
          simp only [matchAt, h3, h2] at h
          exact Option.noConfusion h
      | none =>
          cases h1 : tryDigitCount 1 u with
          | some t1 =>
              simp only [matchAt, h3, h2, h1] at h
              exact Option.noConfusion h
          | none =>
              intro t hvt
              obtain ⟨ds, gs, r, htok, hu, hne, hlen, hd, hcg, hb⟩ :=
                validTokenFrom_decomp u t hvt
              have h1le : 1 ≤ ds.length := by
                cases ds with
                | nil => exact absurd rfl hne
                | cons c l => simp
              have hcase : ds.length = 1 ∨ ds.length = 2 ∨ ds.length = 3 := by omega
              rcases hcase with hl | hl | hl
              · exact tryDigitCount_none 1 u h1 ds gs r hu hl hd hcg hb
              · exact tryDigitCount_none 2 u h2 ds gs r hu hl hd hcg hb
              · exact tryDigitCount_none 3 u h3 ds gs r hu hl hd hcg hb

theorem matchAt_maximal (u tok : List Char) (h : matchAt u = some tok) :
    ∀ t, ValidTokenFrom u t → t.length ≤ tok.length := by
  cases h3 : tryDigitCount 3 u with
  | some t3 =>
      simp only [matchAt, h3, Option.some.injEq] at h
      subst h
      refine tryDigitCount_max 3 u t3 h3 ?_
      intro m hm3 hm3b
      omega
  | none =>
      cases h2 : tryDigitCount 2 u with
      | some t2 =>
          simp only [matchAt, h3, h2, Option.some.injEq] at h
          subst h
          refine tryDigitCount_max 2 u t2 h2 ?_
          intro m hm hm3
          have : m = 3 := by omega
          rw [this]
          exact h3
      | none =>
          cases h1 : tryDigitCount 1 u with
          | some t1 =>
              simp only [matchAt, h3, h2, h1, Option.some.injEq] at h
              subst h
              refine tryDigitCount_max 1 u t1 h1 ?_
              intro m hm hm3
              have : m = 2 ∨ m = 3 := by omega
              rcases this with rfl | rfl
              · exact h2
              · exact h3
          | none =>
              simp only [matchAt, h3, h2, h1] at h
              exact Option.noConfusion h

theorem validTokenFrom_head_digit (u t : List Char) (h : ValidTokenFrom u t) :
    ∃ d, u.head? = some d ∧ d.isDigit = true := by
  obtain ⟨ds, gs, r, htok, hu, hne, hlen, hd, hcg, hb⟩ := validTokenFrom_decomp u t h
  cases ds with
  | nil => exact absurd rfl hne
  | cons d ds0 =>
      refine ⟨d, ?_, hd d (List.mem_cons_self d ds0)⟩
      rw [hu]
      rfl

theorem boundary_prev_nonword (prev : Option Char) (c : Char)
    (hb : isBoundary prev (some c) = true) (hwc : isWordChar c = true) :
    ∀ pc, prev = some pc → isWordChar pc = false := by
  intro pc hpc
  subst hpc
  simp only [isBoundary, Option.elim, hwc] at hb
  cases hx : isWordChar pc
  · rfl
  · rw [hx] at hb
    cases hb

theorem no_token_at_head_of_not_boundary (prev : Option Char) (c : Char) (rest : List Char)
    (hb : isBoundary prev (some c) = false) (t : List Char) :
    ¬ TokAtP prev (c :: rest) 0 t := by
  rintro ⟨hval, hprev⟩
  rw [List.drop_zero] at hval
  obtain ⟨d, hd, hdig⟩ := validTokenFrom_head_digit (c :: rest) t hval
  rw [List.head?_cons] at hd
  injection hd with hd
  subst hd
  have hwc : isWordChar c = true := isWordChar_of_digit c hdig
  simp only [isBoundary, Option.elim] at hb
  rw [hwc] at hb
  cases hp : prev with
  | none =>
      rw [hp] at hb
      simp at hb
  | some pc =>
      rw [hp] at hb
      simp only [Option.elim] at hb
      have hw : isWordChar pc = true := by
        cases hx : isWordChar pc
        · rw [hx] at hb
          simp at hb
        · rfl
      have hnw := hprev pc (by simp [prevAt, hp])
      rw [hnw] at hw
      cases hw

theorem tokAtP_succ (prev : Option Char) (c : Char) (rest : List Char) (j : Nat)
    (t : List Char) : TokAtP prev (c :: rest) (j + 1) t ↔ TokAtP (some c) rest j t := by
  cases j with
  | zero => simp [TokAtP, prevAt]
  | succ k => simp [TokAtP, prevAt, List.drop_succ_cons]

theorem reSearch_cons_found (prev : Option Char) (c : Char) (rest tok : List Char)
    (hb : isBoundary prev (some c) = true) (hm : matchAt (c :: rest) = some tok) :
    reSearch prev (c :: rest) = some tok := by
  simp [reSearch, hb, hm]

theorem reSearch_cons_skip_noBoundary (prev : Option Char) (c : Char) (rest : List Char)
    (hb : isBoundary prev (some c) = false) :
    reSearch prev (c :: rest) = reSearch (some c) rest := by
  simp [reSearch, hb]

theorem reSearch_cons_skip_noMatch (prev : Option Char) (c : Char) (rest : List Char)
    (hb : isBoundary prev (some c) = true) (hm : matchAt (c :: rest) = none) :
    reSearch prev (c :: rest) = reSearch (some c) rest := by
  simp [reSearch, hb, hm]

theorem reSearch_shift (prev : Option Char) (c : Char) (rest : List Char)
    (hskip : reSearch prev (c :: rest) = reSearch (some c) rest)
    (hnot0 : ∀ t, ¬ TokAtP prev (c :: rest) 0 t)
    (ih : (∀ tok, reSearch (some c) rest = some tok →
        ∃ i, TokAtP (some c) rest i tok ∧ (∀ j t, TokAtP (some c) rest j t → i ≤ j) ∧
          (∀ t, TokAtP (some c) rest i t → t.length ≤ tok.length)) ∧
      (reSearch (some c) rest = none → ∀ i t, ¬ TokAtP (some c) rest i t)) :
    (∀ tok, reSearch prev (c :: rest) = some tok →
      ∃ i, TokAtP prev (c :: rest) i tok ∧ (∀ j t, TokAtP prev (c :: rest) j t → i ≤ j) ∧
        (∀ t, TokAtP prev (c :: rest) i t → t.length ≤ tok.length)) ∧
    (reSearch prev (c :: rest) = none → ∀ i t, ¬ TokAtP prev (c :: rest) i t) := by
  constructor
  · intro tok h
    rw [hskip] at h
    obtain ⟨i0, hP, hmin, hmax⟩ := ih.1 tok h
    refine ⟨i0 + 1, (tokAtP_succ prev c rest i0 tok).mpr hP, ?_, ?_⟩
    · intro j t hj
      cases j with
      | zero => exact absurd hj (hnot0 t)
      | succ j0 =>
          have := hmin j0 t ((tokAtP_succ prev c rest j0 t).mp hj)
          omega
    · intro t ht
      exact hmax t ((tokAtP_succ prev c rest i0 t).mp ht)
  · intro h i t
    rw [hskip] at h
    cases i with
    | zero => exact hnot0 t
    | succ i0 =>
        intro hcon
        exact ih.2 h i0 t ((tokAtP_succ prev c rest i0 t).mp hcon)

theorem reSearch_spec (s : List Char) : ∀ (prev : Option Char),
    (∀ tok, reSearch prev s = some tok →
      ∃ i, TokAtP prev s i tok ∧ (∀ j t, TokAtP prev s j t → i ≤ j) ∧
        (∀ t, TokAtP prev s i t → t.length ≤ tok.length)) ∧
    (reSearch prev s = none → ∀ i t, ¬ TokAtP prev s i t) := by
  induction s with
  | nil =>
      intro prev
      constructor
      · intro tok h
        rw [reSearch] at h
        exact Option.noConfusion h
      · intro _ i t ht
        obtain ⟨hval, _⟩ := ht
        obtain ⟨d, hd, _⟩ := validTokenFrom_head_digit _ t hval
        simp [List.drop_nil] at hd
  | cons c rest ih =>
      intro prev
      by_cases hb : isBoundary prev (some c) = true
      · cases hm : matchAt (c :: rest) with
        | some tok0 =>
            have hre := reSearch_cons_found prev c rest tok0 hb hm
            have hval0 : ValidTokenFrom (c :: rest) tok0 := matchAt_sound (c :: rest) tok0 hm
            have hwc : isWordChar c = true := by
              obtain ⟨d, hd, hdig⟩ := validTokenFrom_head_digit (c :: rest) tok0 hval0
              rw [List.head?_cons] at hd
              injection hd with hd
              subst hd
              exact isWordChar_of_digit c hdig
            constructor
            · intro tok h
              rw [hre] at h
              injection h with h
              subst h
              refine ⟨0, ⟨by rw [List.drop_zero]; exact hval0, ?_⟩, ?_, ?_⟩
              · intro pc hpc
                simp only [prevAt, if_pos rfl] at hpc
                exact boundary_prev_nonword prev c hb hwc pc hpc
              · intro j t _
                omega
              · intro t ht
                obtain ⟨htv, _⟩ := ht
                rw [List.drop_zero] at htv
                exact matchAt_maximal (c :: rest) tok0 hm t htv
            · intro h
              rw [hre] at h
              exact Option.noConfusion h
        | none =>
            refine reSearch_shift prev c rest
              (reSearch_cons_skip_noMatch prev c rest hb hm) ?_ (ih (some c))
            intro t ht
            obtain ⟨htv, _⟩ := ht
            rw [List.drop_zero] at htv
            exact matchAt_none (c :: rest) hm t htv
      · have hbf : isBoundary prev (some c) = false := eq_false_of_ne_true hb
        exact reSearch_shift prev c rest
          (reSearch_cons_skip_noBoundary prev c rest hbf)
          (no_token_at_head_of_not_boundary prev c rest hbf) (ih (some c))

theorem tokenAt_iff_tokAtP (s : List Char) (i : Nat) (t : List Char) :
    TokenAt s i t ↔ TokAtP none s i t := by
  cases i with
  | zero => simp [TokenAt, TokAtP, prevAt, NonWordHead]
  | succ k => simp [TokenAt, TokAtP, prevAt, NonWordHead]

/-- C7: the extracted shipping price is the dollar sign followed by the
first comma-grouped numeric token of the muted caption text (leftmost
occurrence, longest alternative there - exactly what the greedy
left-to-right search of `RE_PATTERN_COMMA_SEPARATED_NUM` finds), and is
`$0` when the text holds no such token; in particular the caption
`Plus $1,234 shipping` yields `$1,234`. -/
theorem c7_shipping_price_first_token :
    (∀ mutedCaption : Option String,
      (∃ tok, FirstTokenIs (get_html_tag_as_text mutedCaption).data tok ∧
        _shipping_price mutedCaption = "$" ++ String.mk tok) ∨
      ((∀ i t, ¬ TokenAt (get_html_tag_as_text mutedCaption).data i t) ∧
        _shipping_price mutedCaption = "$0")) ∧
    _shipping_price (some "Plus $1,234 shipping") = "$1,234" := by
  constructor
  · intro mutedCaption
    set s := (get_html_tag_as_text mutedCaption).data with hs
    cases hr : reSearch none s with
    | some tok =>
        left
        obtain ⟨i, hP, hmin, hmax⟩ := (reSearch_spec s none).1 tok hr
        refine ⟨tok, ⟨i, ?_, ?_, ?_⟩, ?_⟩
        · exact (tokenAt_iff_tokAtP s i tok).mpr hP
        · intro j u hj
          exact hmin j u ((tokenAt_iff_tokAtP s j u).mp hj)
        · intro u hu
          exact hmax u ((tokenAt_iff_tokAtP s i u).mp hu)
        · simp only [_shipping_price]
          rw [hr]
    | none =>
        right
        refine ⟨?_, ?_⟩
        · intro i t hit
          exact (reSearch_spec s none).2 hr i t ((tokenAt_iff_tokAtP s i t).mp hit)
        · simp only [_shipping_price]
          rw [hr]
          rfl
  · set_option maxRecDepth 10000 in decide

/-- Witness for C7 at the concrete caption of the specification. -/
theorem c7_shipping_price_witness :
    _shipping_price (some "Plus $1,234 shipping") = "$1,234" :=
  c7_shipping_price_first_token.2

/-! ## C8: image URLs, lower-casing and the size-token rewrite -/

theorem pyCharLower_not_upper (c : Char) : ¬ ('A' ≤ pyCharLower c ∧ pyCharLower c ≤ 'Z') := by
  unfold pyCharLower
  by_cases h : 'A' ≤ c ∧ c ≤ 'Z'
  · rw [if_pos h]
    have h1 : 65 ≤ c.toNat := by
      have hh := h.1
      simp only [Char.le_def] at hh
      exact hh
    have h2 : c.toNat ≤ 90 := by
      have hh := h.2
      simp only [Char.le_def] at hh
      exact hh
    interval_cases h3 : c.toNat <;> decide
  · rw [if_neg h]
    exact h

theorem pyReplaceAux_of_not_contains (pat rep : List Char) :
    ∀ fuel s, containsSub s pat = false → pyReplaceAux pat rep fuel s = s := by
  intro fuel
  induction fuel with
  | zero => intro s _; rw [pyReplaceAux]
  | succ fuel ih =>
      intro s h
      cases s with
      | nil => rw [pyReplaceAux]
      | cons c rest =>
          rw [containsSub, Bool.or_eq_false_iff] at h
          rw [pyReplaceAux]
          simp only [h.1, Bool.false_and, Bool.false_eq_true, if_false]
          rw [ih rest h.2]

theorem pyReplace_of_not_contains (pat rep s : List Char) (h : containsSub s pat = false) :
    pyReplace pat rep s = s :=
  pyReplaceAux_of_not_contains pat rep s.length s h

/-- C8 (amended): every string in `image_urls` is the carousel cell
lazy-load attribute text lower-cased and then with `"square_size_"`
replaced by `"ExtraLarge"`; because the replacement runs after the
lower-casing and its replacement text is mixed-case, the resulting URL
is entirely lower-case only when the lowered attribute does not contain
the size token (the claim that every resulting URL is entirely
lower-case fails when the token occurs). -/
theorem c8_image_urls_lowercase (cells : List CarouselCell) :
    ∀ u ∈ _image_urls cells, ∃ cell ∈ cells,
      u = pyReplaceS (pyLowerS (get_html_tag_attribute_as_text cell.img))
            "square_size_" "ExtraLarge" ∧
      (containsSub (pyLowerS (get_html_tag_attribute_as_text cell.img)).data
          "square_size_".data = false → isAllLower u = true) := by
  intro u hu
  obtain ⟨cell, hcell, hequ⟩ := List.mem_map.mp hu
  refine ⟨cell, hcell, hequ.symm, ?_⟩
  intro hnc
  rw [← hequ]
  unfold pyReplaceS
  rw [pyReplace_of_not_contains _ _ _ hnc]
  unfold isAllLower
  rw [List.all_eq_true]
  intro c hc
  simp only [Bool.not_eq_true']
  apply decide_eq_false
  have hcl : c ∈ pyLower (get_html_tag_attribute_as_text cell.img).data := by
    simpa [pyLowerS] using hc
  obtain ⟨c0, _, rfl⟩ := List.mem_map.mp hcl
  exact pyCharLower_not_upper c0

/-- C8 counterexample: a carousel cell whose attribute contains the
size token produces the URL `ExtraLargea.jpg`, which is not entirely
lower-case, refuting the claim that every resulting URL string is
entirely lower-case. -/
theorem c8_counterexample_size_token :
    _image_urls [{ img := some "square_size_a.jpg" }] = ["ExtraLargea.jpg"] ∧
    isAllLower "ExtraLargea.jpg" = false := by
  set_option maxRecDepth 10000 in decide

/-- Witness for the amended C8 theorem at a token-free attribute. -/
theorem c8_image_urls_lowercase_witness : isAllLower "photo.jpg" = true := by
  have h := c8_image_urls_lowercase [{ img := some "photo.jpg" }] "photo.jpg"
    (by set_option maxRecDepth 10000 in decide)
  obtain ⟨cell, hcell, _, himp⟩ := h
  have hone : cell = { img := some "photo.jpg" } := by
    cases List.mem_singleton.mp hcell
    rfl
  subst hone
  exact himp (by set_option maxRecDepth 10000 in decide)

/-! ## C9: the logistical-details mapping and available payments -/

theorem listLE_total : ∀ l1 l2 : List Char, listLE l1 l2 = true ∨ listLE l2 l1 = true := by
  intro l1
  induction l1 with
  | nil => intro l2; left; rfl
  | cons a as ih =>
      intro l2
      cases l2 with
      | nil => right; rfl
      | cons b bs =>
          by_cases hab : a < b
          · left; simp [listLE, hab]
          · by_cases hba : b < a
            · right; simp [listLE, hba, hab]
            · rcases ih bs with h | h
              · left; simp [listLE, hab, hba, h]
              · right; simp [listLE, hab, hba, h]

theorem listLE_trans : ∀ l1 l2 l3 : List Char,
    listLE l1 l2 = true → listLE l2 l3 = true → listLE l1 l3 = true := by
  intro l1
  induction l1 with
  | nil => intro l2 l3 _ _; rfl
  | cons a as ih =>
      intro l2 l3 h12 h23
      cases l2 with
      | nil => simp [listLE] at h12
      | cons b bs =>
          cases l3 with
          | nil => simp [listLE] at h23
          | cons c cs =>
              by_cases hab : a < b
              · by_cases hbc : b < c
                · simp [listLE, lt_trans hab hbc]
                · by_cases hcb : c < b
                  · simp [listLE, hbc, hcb] at h23
                  · have hbceq : b = c := le_antisymm (not_lt.mp hcb) (not_lt.mp hbc)
                    subst hbceq
                    simp [listLE, hab]
              · by_cases hba : b < a
                · simp [listLE, hab, hba] at h12
                · have habeq : a = b := le_antisymm (not_lt.mp hba) (not_lt.mp hab)
                  subst habeq
                  by_cases hac : a < c
                  · simp [listLE, hac]
                  · by_cases hca : c < a
                    · simp [listLE, hac, hca] at h23
                    · have h12b : listLE as bs = true := by
                        rw [listLE, if_neg hab, if_neg hba] at h12
                        exact h12
                      have h23b : listLE bs cs = true := by
                        rw [listLE, if_neg hac, if_neg hca] at h23
                        exact h23
                      rw [listLE, if_neg hac, if_neg hca]
                      exact ih bs cs h12b h23b

theorem listLE_lex : ∀ l1 l2 : List Char, listLE l1 l2 = true →
    l1 = l2 ∨ List.Lex (fun a b : Char => a < b) l1 l2 := by
  intro l1
  induction l1 with
  | nil =>
      intro l2 _
      cases l2 with
      | nil => left; rfl
      | cons b bs => right; exact List.Lex.nil
  | cons a as ih =>
      intro l2 h
      cases l2 with
      | nil => simp [listLE] at h
      | cons b bs =>
          by_cases hab : a < b
          · right; exact List.Lex.rel hab
          · by_cases hba : b < a
            · simp [listLE, hab, hba] at h
            · have habeq : a = b := le_antisymm (not_lt.mp hba) (not_lt.mp hab)
              subst habeq
              simp only [listLE, if_neg hab, if_neg hba] at h
              rcases ih bs h with rfl | hlex
              · left; rfl
              · right; exact List.Lex.cons hlex

theorem listLE_imp_le (a b : String) (h : listLE a.data b.data = true) : a ≤ b := by
  rw [String.le_iff_toList_le]
  rcases listLE_lex a.data b.data h with heq | hlex
  · exact le_of_eq heq
  · exact le_of_lt hlex

/-- C9 (amended): every detail record maps the fixed key
`availabe_payments` - spelled exactly as in the source, with the
missing second letter l, the spelling the test-suite of the repository
also expects - to the available-payments list, and does not contain a
key `available_payments`; the value is a de-duplicated, ascending
sorted list of tokens drawn from the closed keyword set
`{visa, mastercard, american-express, bankwire, affirm}`. -/
theorem c9_availabe_payments_key (d : DetailPage) :
    ((_logistical_details d).map Prod.fst =
      ["availabe_payments", "anticipated_delivery", "merchant_name", "merchant_rating",
        "merchant_reviews", "merchant_badges"]) ∧
    ("available_payments" ∉ (_logistical_details d).map Prod.fst) ∧
    (("availabe_payments", JVal.l (_available_payments d.paymentIcons)) ∈
      _logistical_details d) ∧
    List.Sorted (fun a b : String => a ≤ b) (_available_payments d.paymentIcons) ∧
    (_available_payments d.paymentIcons).Nodup ∧
    (∀ x ∈ _available_payments d.paymentIcons, x ∈ payment_keywords) := by
  have hkeys : (_logistical_details d).map Prod.fst =
      ["availabe_payments", "anticipated_delivery", "merchant_name", "merchant_rating",
        "merchant_reviews", "merchant_badges"] := rfl
  haveI htotal : IsTotal String (fun a b => listLE a.data b.data = true) :=
    ⟨fun a b => listLE_total a.data b.data⟩
  haveI htrans : IsTrans String (fun a b => listLE a.data b.data = true) :=
    ⟨fun a b c => listLE_trans a.data b.data c.data⟩
  refine ⟨hkeys, ?_, ?_, ?_, ?_, ?_⟩
  · rw [hkeys]
    decide
  · exact List.mem_cons_self _ _
  · have hs := List.sorted_insertionSort (fun a b : String => listLE a.data b.data = true)
      ((d.paymentIcons.filterMap (fun icon =>
        payment_keywords.find? (fun k => containsSub (iconClassText icon).data k.data))).dedup)
    exact hs.imp (fun hab => listLE_imp_le _ _ hab)
  · exact ((List.perm_insertionSort _ _).nodup_iff).mpr (List.nodup_dedup _)
  · intro x hx
    have hx2 : x ∈ (d.paymentIcons.filterMap (fun icon =>
        payment_keywords.find? (fun k => containsSub (iconClassText icon).data k.data))).dedup :=
      (List.perm_insertionSort _ _).mem_iff.mp hx
    rw [List.mem_dedup] at hx2
    obtain ⟨icon, _, hfind⟩ := List.mem_filterMap.mp hx2
    exact List.mem_of_find?_eq_some hfind

/-- C9 counterexample: on a concrete detail page the record keys
contain `availabe_payments` but not the claimed `available_payments`,
and the payments value is the expected singleton. -/
theorem c9_counterexample_key_typo :
    ((_logistical_details visaDetailPage).map Prod.fst).contains "available_payments" = false ∧
    ((_logistical_details visaDetailPage).map Prod.fst).contains "availabe_payments" = true ∧
    _available_payments visaDetailPage.paymentIcons = ["visa"] := by
  set_option maxRecDepth 10000 in decide

/-- Witness for the amended C9 theorem at the concrete detail page. -/
theorem c9_availabe_payments_key_witness :
    (_logistical_details visaDetailPage).map Prod.fst =
      ["availabe_payments", "anticipated_delivery", "merchant_name", "merchant_rating",
        "merchant_reviews", "merchant_badges"] :=
  (c9_availabe_payments_key visaDetailPage).1
